import Mathlib

/-!
Verification development for the roof-window assistant (`app.py`): the
natural-language-to-SQL pipeline consisting of tool-call validation
(lines 202–227), the fuzzy column-reconciliation loop (lines 229–268),
the execution stage (lines 275–282), and the conversation state handling
(lines 148–200).

Python strings are modelled as lists of characters (all inputs in play are
ASCII).  The third-party collaborators (`rapidfuzz.fuzz.WRatio`, the OpenAI
client, `duckdb`) are not repository code; the similarity scorer is
therefore an explicit parameter `scorer : Str → Str → Nat` (a percentage
score, as rapidfuzz reports), while `process.extractOne` — whose selection
semantics the repository relies on (best score wins, ties broken by list
position, results below the cutoff discarded) — is embedded explicitly.
-/

namespace RoofWindows

/-- Python strings, modelled as lists of characters. -/
abbrev Str := List Char

/-- Membership in the regex character class `[A-Za-z0-9_]` used by the token
regex of app.py line 231 (and the word characters governing its `\b`
boundaries on the ASCII inputs in play). -/
def isWordChar (c : Char) : Bool := c.isAlpha || c.isDigit || c == '_'

/-- Python `str.lower()` (ASCII case folding on the characters in play). -/
def lowerStr (s : Str) : Str := s.map Char.toLower

/-- Python `str.upper()` (ASCII case folding on the characters in play). -/
def upperStr (s : Str) : Str := s.map Char.toUpper

/-- Identifier-leading characters (`[A-Za-z_]`) of the token regex. -/
def isIdentStart (c : Char) : Bool := c.isAlpha || c == '_'

/-- Longest prefix of `s` whose characters have word-character status `b`,
paired with the remainder. -/
def spanRun (b : Bool) : Str → Str × Str
  | [] => ([], [])
  | c :: cs =>
    if isWordChar c = b then
      let p := spanRun b cs
      (c :: p.1, p.2)
    else ([], c :: cs)

/-- Fuel-indexed run decomposition; the fuel keeps the recursion structural
so that concrete instances evaluate inside the kernel. -/
def splitRunsAux : Nat → Str → List Str
  | 0, _ => []
  | _, [] => []
  | fuel + 1, c :: cs =>
    (c :: (spanRun (isWordChar c) cs).1) :: splitRunsAux fuel (spanRun (isWordChar c) cs).2

/-- Decomposition of a string into its maximal runs of characters of equal
word-character status.  A `\b` word boundary of the Python regexes in
app.py falls exactly at the borders between these runs (and at the string
ends), so both `re.findall` of line 231 and the whole-word `re.sub` calls
of lines 254 and 262 are functions of this decomposition. -/
def splitRuns (s : Str) : List Str := splitRunsAux s.length s

/-- Wellformedness of a run decomposition relative to the word-character
status `prev` of the run just before it: every run is nonempty and uniform,
and adjacent runs alternate status. -/
def chainOK : Option Bool → List Str → Bool
  | _, [] => true
  | _, [] :: _ => false
  | prev, (c :: r) :: rs =>
    decide (prev ≠ some (isWordChar c)) && r.all (fun x => isWordChar x == isWordChar c)
      && chainOK (some (isWordChar c)) rs

/-- The identifier-token shape of the regex `\b([A-Za-z_][A-Za-z0-9_]{2,})\b`
(app.py line 231): a word run of length at least three whose first character
is a letter or underscore.  Since the regex's character classes are exactly
the word characters and `\b` boundaries never fall inside a word run, its
matches in a string are precisely the maximal word runs of this shape. -/
def isIdentTok (r : Str) : Bool :=
  match r with
  | [] => false
  | c :: _ => isIdentStart c && decide (3 ≤ r.length) && r.all isWordChar

/-- The token set
`tokens_in_sql = set(re.findall(r"\b([A-Za-z_][A-Za-z0-9_]{2,})\b", sql))`
of app.py line 231.  Python's set iteration order is unspecified, so the
set is modelled as a duplicate-free list of the matches; the reconciliation
theorems below show the loop's result is insensitive to this order. -/
def tokensInSql (s : Str) : List Str := ((splitRuns s).filter isIdentTok).dedup

/-- `TABLE_NAME_IN_SQL = 'roof_df'` (app.py line 233). -/
def TABLE_NAME : Str := "roof_df".toList

/-- `SQL_KEYWORDS` (app.py lines 234–239). -/
def SQL_KEYWORDS : List Str :=
  ["SELECT", "FROM", "WHERE", "AND", "OR", "GROUP", "BY", "ORDER", "LIMIT", "AS", "ON",
   "LEFT", "JOIN", "INNER", "RIGHT", "DESC", "ASC", "IS", "NOT", "NULL", "LIKE", "ILIKE",
   "IN", "BETWEEN", "DISTINCT", "CASE", "WHEN", "THEN", "ELSE", "END", "UNION", "ALL",
   "COUNT", "SUM", "AVG", "MIN", "MAX", "HAVING", "CAST", "VARCHAR", "INTEGER", "NUMERIC",
   "TEXT", "REAL"].map String.toList

/-- `column_lookup_lowercase = {col.lower(): col for col in COLUMNS}`
(app.py line 240): a later column whose lowercasing collides with an earlier
one overwrites it, so lookup finds the last such column. -/
def lookupLower (cols : List Str) (k : Str) : Option Str :=
  cols.reverse.find? (fun c => lowerStr c == k)

/-- First-position-wins maximum underlying `rapidfuzz.process.extractOne`:
the best-scoring choice together with its score, earlier list positions
winning ties. -/
def bestMatch (scorer : Str → Str → Nat) (tok : Str) : List Str → Option (Str × Nat)
  | [] => none
  | c :: cs =>
    match bestMatch scorer tok cs with
    | none => some (c, scorer tok c)
    | some (b, bs) => if scorer tok c < bs then some (b, bs) else some (c, scorer tok c)

/-- `process.extractOne(tok, COLUMNS, scorer=fuzz.WRatio, score_cutoff=80)`
(app.py line 257), projected to the matched choice: `None` when the best
score falls below the cutoff, otherwise the first choice attaining the best
score. -/
def extractOne (scorer : Str → Str → Nat) (cutoff : Nat) (choices : List Str)
    (tok : Str) : Option Str :=
  match bestMatch scorer tok choices with
  | none => none
  | some p => if cutoff ≤ p.2 then some p.1 else none

/-- Whether a maximal word run is rewritten by
`re.sub(rf"\b{re.escape(tok)}\b", repl, s)`: with `tok` consisting purely
of word characters the pattern matches exactly the maximal word runs equal
to `tok`, equal after `lower()` when `re.IGNORECASE` is set. -/
def runMatches (ci : Bool) (tok r : Str) : Bool :=
  if ci then lowerStr r == lowerStr tok else r == tok

/-- `re.sub(rf"\b{re.escape(tok)}\b", repl, s)` (with `flags=re.IGNORECASE`
when `ci` is set): every whole-word occurrence of `tok` — every maximal
word run equal to it — is replaced by `repl`. -/
def reSubWord (ci : Bool) (tok repl : Str) (s : Str) : Str :=
  ((splitRuns s).map (fun r => if runMatches ci tok r then repl else r)).flatten

/-- The skip test of app.py line 246: the token is the fixed table name
(case-insensitively) or an SQL keyword (after uppercasing). -/
def isSkipTok (tok : Str) : Bool :=
  lowerStr tok == lowerStr TABLE_NAME || SQL_KEYWORDS.contains (upperStr tok)

/-- One iteration of the reconciliation loop of app.py lines 242–266 for
token `tok`, transforming the current corrected query. -/
def reconcileStep (scorer : Str → Str → Nat) (cols : List Str) (cur : Str)
    (tok : Str) : Str :=
  if isSkipTok tok then cur
  else if tok.any (fun c => c == '\'' || c == '"') then cur
  else
    match lookupLower cols (lowerStr tok) with
    | some canonical => if tok ≠ canonical then reSubWord false tok canonical cur else cur
    | none =>
      match extractOne scorer 80 cols tok with
      | some matched => reSubWord true tok matched cur
      | none => cur

/-- The fuzzy column-mapping pass of app.py lines 230–268: fold the
per-token correction over the identifier tokens of the raw statement. -/
def reconcile (scorer : Str → Str → Nat) (cols : List Str) (raw : Str) : Str :=
  (tokensInSql raw).foldl (reconcileStep scorer cols) raw

/-- Parsed JSON arguments of a tool call, as read at app.py lines 214–221:
`json.loads` may fail (modelled by `none` at the call site), and `sql` and
`excel` are read with `.get`, so each may be absent. -/
structure ParsedArgs where
  sql : Option Str
  excel : Option Bool
deriving DecidableEq

/-- One structured tool call of a generation-service response. -/
structure ToolCallData where
  fname : Str
  args : Option ParsedArgs
deriving DecidableEq

/-- A generation-service response: optional free-text content plus a list
of structured tool calls. -/
structure AssistantMsg where
  content : Option Str
  toolCalls : List ToolCallData
deriving DecidableEq

/-- `execute_query`, the single tool name accepted at app.py line 210. -/
def execName : Str := "execute_query".toList

/-- The raw SQL a generation-service response yields before reconciliation,
following app.py lines 202–227: `none` when the script stops first — no
tool call, wrong function name, undecodable JSON arguments, or a missing or
empty `sql` argument (`if not sql_query_from_ai`). -/
def pipelineRawSql (msg : AssistantMsg) : Option Str :=
  match msg.toolCalls with
  | [] => none
  | tc :: _ =>
    if tc.fname ≠ execName then none
    else
      match tc.args with
      | none => none
      | some a =>
        match a.sql with
        | none => none
        | some sql => if sql = [] then none else some sql

/-- The export flag `args.get("excel", False)` (app.py line 221): absence
defaults to `False` rather than failing. -/
def wantExcel (a : ParsedArgs) : Bool := a.excel.getD false

/-- The statement handed to `duckdb.query_df` (app.py line 277), when the
interaction reaches execution: validation failures stop the script, and
every surviving statement is forwarded after reconciliation — the code has
no further gate between reconciliation and the relational engine. -/
def statementSentToEngine (scorer : Str → Str → Nat) (cols : List Str)
    (msg : AssistantMsg) : Option Str :=
  match pipelineRawSql msg with
  | none => none
  | some sql => some (reconcile scorer cols sql)

/-- Whether a statement is a read-only statement beginning with `SELECT`,
after uppercasing and ignoring leading blanks — the shape the specification
requires the executor to restrict itself to. -/
def beginsWithSelect (s : Str) : Bool :=
  List.isPrefixOf "SELECT".toList (upperStr (s.dropWhile (fun c => c == ' ')))

/-- One turn of the conversation log `st.session_state.chat`. -/
inductive Turn where
  | sys (text : Str)
  | user (text : Str)
  | assistant (msg : AssistantMsg)
  | toolResult (text : Str)
deriving DecidableEq

/-- Recognize tool-result turns. -/
def isToolResult : Turn → Bool
  | Turn.toolResult _ => true
  | _ => false

/-- App.py lines 148–149: the chat is reset to a single system turn holding
the system prompt unless it already starts with a system turn. -/
def ensureSystem (sp : Str) (chat : List Turn) : List Turn :=
  match chat with
  | Turn.sys t :: rest => Turn.sys t :: rest
  | _ => [Turn.sys sp]

/-- App.py lines 159–160: append the user prompt unless the final turn is
already exactly this user prompt. -/
def appendUserIfNew (chat : List Turn) (prompt : Str) : List Turn :=
  if chat.getLast? = some (Turn.user prompt) then chat else chat ++ [Turn.user prompt]

/-- The messages handed to the generation service for a synthesis call
(app.py line 173): the current chat after the system-turn guard of lines
148–149 and the user-prompt append of lines 159–160. -/
def synthesisInput (sp : Str) (chat : List Turn) (prompt : Str) : List Turn :=
  appendUserIfNew (ensureSystem sp chat) prompt

/-- The chat after one interaction, following app.py lines 148–227: the
assistant message is appended when not already present (lines 199–200), and
nothing else is ever appended during the interaction — in particular no
tool-result turn, whether the response validates or not. -/
def chatAfterInteraction (sp : Str) (chat : List Turn) (prompt : Str)
    (resp : AssistantMsg) : List Turn :=
  if (Turn.assistant resp) ∈ synthesisInput sp chat prompt then synthesisInput sp chat prompt
  else synthesisInput sp chat prompt ++ [Turn.assistant resp]

/-- A tool invocation is resolved when a tool-result turn appears after it
before the next user turn. -/
def resolvedBefore : List Turn → Bool
  | [] => false
  | Turn.toolResult _ :: _ => true
  | Turn.user _ :: _ => false
  | _ :: rest => resolvedBefore rest

/-- The conversation-balance invariant of the specification (§3, §4.5): no
assistant turn carrying a tool invocation lacks a following tool-result
turn before the next user turn. -/
def balanced : List Turn → Bool
  | [] => true
  | Turn.assistant m :: rest => (m.toolCalls.isEmpty || resolvedBefore rest) && balanced rest
  | _ :: rest => balanced rest

/-- The fate of a single identifier token under one loop iteration of
app.py lines 242–266, as a function of the token alone: skipped (table
name or SQL keyword; the dead quoted-token check), replaced by the
canonical casing on an exact lookup hit, replaced by the fuzzy match when
one clears the cutoff, and otherwise left alone. -/
def reconcileTarget (scorer : Str → Str → Nat) (cols : List Str) (tok : Str) : Str :=
  if isSkipTok tok then tok
  else if tok.any (fun c => c == '\'' || c == '"') then tok
  else
    match lookupLower cols (lowerStr tok) with
    | some canonical => canonical
    | none => (extractOne scorer 80 cols tok).getD tok

/-- The per-run effect of the whole reconciliation loop: identifier-shaped
maximal runs move to their target, all other runs are untouched. -/
def runImage (scorer : Str → Str → Nat) (cols : List Str) (r : Str) : Str :=
  if isIdentTok r then reconcileTarget scorer cols r else r

/-- The per-run effect of the loop after only the tokens in `done` have
been processed. -/
def runImageUpTo (scorer : Str → Str → Nat) (cols : List Str) (done : List Str)
    (r : Str) : Str :=
  if r ∈ done then runImage scorer cols r else r

/-- The schema columns are canonical for the lookup dictionary of app.py
line 240: looking up any column's lowercasing returns that column itself.
This holds whenever the columns are case-insensitively distinct — in
particular for the real dataset's cleaned lowercase slug columns. -/
abbrev colsCanonical (cols : List Str) : Prop :=
  ∀ c ∈ cols, lookupLower cols (lowerStr c) = some c

/-- Every schema column is a nonempty string of word characters (the
cleaning script produces slugs over letters, digits and underscores). -/
abbrev colsWordShaped (cols : List Str) : Prop :=
  ∀ c ∈ cols, c ≠ [] ∧ ∀ ch ∈ c, isWordChar ch = true

/-- No two distinct non-skipped identifier tokens of `s` that both miss the
column lookup are casings of one another; the case-insensitive fuzzy
substitutions of distinct tokens then touch disjoint runs. -/
abbrev fuzzyClassUnique (cols : List Str) (s : Str) : Prop :=
  ∀ t1 ∈ tokensInSql s, ∀ t2 ∈ tokensInSql s, lowerStr t1 = lowerStr t2 →
    isSkipTok t1 = false → lookupLower cols (lowerStr t1) = none → t1 = t2

/-- Length of the longest common prefix of two strings — the tie-break key
the specification prescribes. -/
def commonPrefixLen : Str → Str → Nat
  | c :: cs, d :: ds => if c = d then commonPrefixLen cs ds + 1 else 0
  | _, _ => 0

/-- The per-run effect of the loop when every candidate resolves exactly:
canonical recasing of non-skipped identifier tokens, everything else
untouched. -/
def exactImage (cols : List Str) (r : Str) : Str :=
  if isIdentTok r = true ∧ isSkipTok r = false then
    match lookupLower cols (lowerStr r) with
    | some canonical => canonical
    | none => r
  else r

/-- A fixed schema for the concrete instances below: a subset of the
cleaned dataset's columns. -/
def colsPoC : List Str :=
  ["brand", "name", "gas", "material", "comments", "external_width_mm_num"].map
    String.toList

/-- Constant-zero similarity: a concrete scorer instance under which no
candidate clears the cutoff. -/
def scorerZero : Str → Str → Nat := fun _ _ => 0

/-- A concrete scorer instance giving `width` one strong candidate. -/
def scorerWidth : Str → Str → Nat := fun t c =>
  if t = "width".toList ∧ c = "external_width_mm_num".toList then 86 else 0

/-- A concrete scorer instance giving `gass` one strong candidate. -/
def scorerGass : Str → Str → Nat := fun t c =>
  if t = "gass".toList ∧ c = "gas".toList then 85 else 0

/-- A concrete scorer instance producing a tie between two schema columns. -/
def scorerTie : Str → Str → Nat := fun t _ => if t = "abc_co".toList then 90 else 0

/-- Two columns tying under `scorerTie` for the token `abc_co`. -/
def colsTie : List Str := ["zzz", "abc_col"].map String.toList

/-- Generation-service response attempting `DELETE FROM roof_df`. -/
def msgDelete : AssistantMsg :=
  ⟨none, [⟨execName, some ⟨some "DELETE FROM roof_df".toList, some false⟩⟩]⟩

/-- Response whose statement holds the unresolvable token `foo`. -/
def msgFoo : AssistantMsg :=
  ⟨none, [⟨execName, some ⟨some "SELECT foo FROM roof_df".toList, some false⟩⟩]⟩

/-- Response with a correct call shape except for the missing required
`excel` argument. -/
def msgNoExcel : AssistantMsg :=
  ⟨none, [⟨execName, some ⟨some "SELECT gas FROM roof_df".toList, none⟩⟩]⟩

/-- Response whose JSON arguments fail to decode. -/
def msgBadJson : AssistantMsg := ⟨none, [⟨execName, none⟩]⟩

/-- A statement whose candidate tokens all match schema columns exactly. -/
def sqlExact : Str :=
  "SELECT GAS, Material FROM roof_df WHERE Comments IS NOT NULL".toList

/-- A statement holding both a fuzzy token `width` and the longer canonical
identifier `external_width_mm_num` containing it. -/
def sqlWidth : Str := "SELECT external_width_mm_num, width FROM roof_df".toList

/-- A statement holding a fuzzy token and a re-cased exact token. -/
def sqlGass : Str := "SELECT gass FROM roof_df WHERE Material = 'x'".toList

/-- A statement holding the two-character identifier `id`. -/
def sqlShort : Str := "SELECT id, gas FROM roof_df".toList

theorem charToNat_inj (c1 c2 : Char) (h : c1.toNat = c2.toNat) : c1 = c2 := by
  have e1 := Char.ofNat_toNat c1
  rw [h] at e1
  rw [← e1, Char.ofNat_toNat]

theorem uint32_le_iff (a b : UInt32) : a ≤ b ↔ a.toNat ≤ b.toNat := by
  rw [UInt32.le_def, BitVec.le_def]
  rfl

theorem isUpper_toNat (c : Char) :
    c.isUpper = (decide (65 ≤ c.toNat) && decide (c.toNat ≤ 90)) := by
  simp only [Char.isUpper, ge_iff_le, uint32_le_iff]
  rfl

theorem isLower_toNat (c : Char) :
    c.isLower = (decide (97 ≤ c.toNat) && decide (c.toNat ≤ 122)) := by
  simp only [Char.isLower, ge_iff_le, uint32_le_iff]
  rfl

theorem isDigit_toNat (c : Char) :
    c.isDigit = (decide (48 ≤ c.toNat) && decide (c.toNat ≤ 57)) := by
  simp only [Char.isDigit, ge_iff_le, uint32_le_iff]
  rfl

theorem toLower_toNat (c : Char) :
    (Char.toLower c).toNat = if 65 ≤ c.toNat ∧ c.toNat ≤ 90 then c.toNat + 32 else c.toNat := by
  unfold Char.toLower
  simp only [ge_iff_le]
  split
  · unfold Char.ofNat
    rw [dif_pos (by left; omega)]
    rfl
  · rfl

theorem toUpper_toNat (c : Char) :
    (Char.toUpper c).toNat = if 97 ≤ c.toNat ∧ c.toNat ≤ 122 then c.toNat - 32 else c.toNat := by
  unfold Char.toUpper
  simp only [ge_iff_le]
  split
  · unfold Char.ofNat
    rw [dif_pos (by left; omega)]
    rfl
  · rfl

theorem beq_underscore (c : Char) : (c == '_') = decide (c.toNat = 95) := by
  cases h : c == '_' with
  | true =>
    have hc : c = '_' := eq_of_beq h
    subst hc
    rfl
  | false =>
    have hne : ¬ c = '_' := fun e => by subst e; simp at h
    have hnat : ¬ c.toNat = 95 := by
      intro e
      exact hne (charToNat_inj c '_' (by rw [e]; rfl))
    simp [hnat]

theorem isWordChar_toNat (c : Char) :
    isWordChar c =
      decide ((48 ≤ c.toNat ∧ c.toNat ≤ 57) ∨ (65 ≤ c.toNat ∧ c.toNat ≤ 90) ∨
        (97 ≤ c.toNat ∧ c.toNat ≤ 122) ∨ c.toNat = 95) := by
  simp only [isWordChar, Char.isAlpha, isUpper_toNat, isLower_toNat, isDigit_toNat,
    beq_underscore]
  cases hd : decide ((48 ≤ c.toNat ∧ c.toNat ≤ 57) ∨ (65 ≤ c.toNat ∧ c.toNat ≤ 90) ∨
      (97 ≤ c.toNat ∧ c.toNat ≤ 122) ∨ c.toNat = 95) with
  | true =>
    simp only [decide_eq_true_eq] at hd
    rcases hd with h | h | h | h <;> simp [h, decide_eq_true_eq] <;> omega
  | false =>
    simp only [decide_eq_false_iff_not] at hd
    push_neg at hd
    simp only [Bool.or_eq_false_iff, Bool.and_eq_false_iff]
    refine ⟨⟨?_, ?_⟩, ?_⟩ <;> simp only [decide_eq_false_iff_not] <;> omega

/-- Case folding does not change whether a character is a word character. -/
theorem isWordChar_toLower (c : Char) : isWordChar (Char.toLower c) = isWordChar c := by
  rw [isWordChar_toNat, isWordChar_toNat, toLower_toNat]
  split <;> rename_i h <;> simp only [decide_eq_decide] <;> omega

/-- Characters that agree after `lower()` agree after `upper()`. -/
theorem toUpper_of_toLower_eq (c1 c2 : Char) (h : Char.toLower c1 = Char.toLower c2) :
    Char.toUpper c1 = Char.toUpper c2 := by
  have hn : (Char.toLower c1).toNat = (Char.toLower c2).toNat := by rw [h]
  rw [toLower_toNat, toLower_toNat] at hn
  apply charToNat_inj
  rw [toUpper_toNat, toUpper_toNat]
  split at hn <;> split at hn <;> split <;> rename_i h1 <;> split <;> rename_i h2 <;> omega

/-- Characters that agree after `lower()` have equal word-character status. -/
theorem isWordChar_of_toLower_eq (c1 c2 : Char) (h : Char.toLower c1 = Char.toLower c2) :
    isWordChar c1 = isWordChar c2 := by
  rw [← isWordChar_toLower c1, ← isWordChar_toLower c2, h]

theorem isIdentStart_toNat (c : Char) :
    isIdentStart c =
      decide ((65 ≤ c.toNat ∧ c.toNat ≤ 90) ∨ (97 ≤ c.toNat ∧ c.toNat ≤ 122) ∨
        c.toNat = 95) := by
  simp only [isIdentStart, Char.isAlpha, isUpper_toNat, isLower_toNat, beq_underscore]
  cases hd : decide ((65 ≤ c.toNat ∧ c.toNat ≤ 90) ∨ (97 ≤ c.toNat ∧ c.toNat ≤ 122) ∨
      c.toNat = 95) with
  | true =>
    simp only [decide_eq_true_eq] at hd
    rcases hd with h | h | h <;> simp [h, decide_eq_true_eq] <;> omega
  | false =>
    simp only [decide_eq_false_iff_not] at hd
    push_neg at hd
    simp only [Bool.or_eq_false_iff, Bool.and_eq_false_iff]
    refine ⟨⟨?_, ?_⟩, ?_⟩ <;> simp only [decide_eq_false_iff_not] <;> omega

/-- Characters that agree after `lower()` have equal identifier-start status. -/
theorem isIdentStart_of_toLower_eq (c1 c2 : Char) (h : Char.toLower c1 = Char.toLower c2) :
    isIdentStart c1 = isIdentStart c2 := by
  have hn : (Char.toLower c1).toNat = (Char.toLower c2).toNat := by rw [h]
  rw [toLower_toNat, toLower_toNat] at hn
  rw [isIdentStart_toNat, isIdentStart_toNat]
  simp only [decide_eq_decide]
  constructor <;> · intro h1; split at hn <;> split at hn <;> omega

theorem spanRun_append_self (b : Bool) (s : Str) :
    (spanRun b s).1 ++ (spanRun b s).2 = s := by
  induction s with
  | nil => rfl
  | cons c cs ih =>
    simp only [spanRun]
    split
    · simpa using ih
    · simp

theorem spanRun_snd_length (b : Bool) (s : Str) : (spanRun b s).2.length ≤ s.length := by
  induction s with
  | nil => simp [spanRun]
  | cons c cs ih =>
    simp only [spanRun]
    split
    · simpa using Nat.le_succ_of_le ih
    · simp

theorem spanRun_fst_all (b : Bool) (s : Str) : ∀ c ∈ (spanRun b s).1, isWordChar c = b := by
  induction s with
  | nil => simp [spanRun]
  | cons c cs ih =>
    simp only [spanRun]
    split
    · rename_i h
      intro d hd
      simp only [List.mem_cons] at hd
      rcases hd with rfl | hd
      · exact h
      · exact ih d hd
    · simp

theorem spanRun_snd_head (b : Bool) (s : Str) (c : Char) (r : Str)
    (h : (spanRun b s).2 = c :: r) : isWordChar c ≠ b := by
  induction s with
  | nil => simp [spanRun] at h
  | cons d cs ih =>
    simp only [spanRun] at h
    split at h
    · exact ih h
    · rename_i hd
      cases h
      exact hd

theorem spanRun_of_append (b : Bool) (xs ys : Str) (hx : ∀ c ∈ xs, isWordChar c = b)
    (hy : ∀ c r, ys = c :: r → isWordChar c ≠ b) : spanRun b (xs ++ ys) = (xs, ys) := by
  induction xs with
  | nil =>
    cases ys with
    | nil => rfl
    | cons c r =>
      simp only [List.nil_append, spanRun]
      rw [if_neg (hy c r rfl)]
  | cons c cs ih =>
    simp only [List.cons_append, spanRun]
    rw [if_pos (hx c (by simp))]
    have := ih (fun d hd => hx d (by simp [hd]))
    simp [this]

theorem splitRunsAux_congr (f1 f2 : Nat) (s : Str) (h1 : s.length ≤ f1)
    (h2 : s.length ≤ f2) : splitRunsAux f1 s = splitRunsAux f2 s := by
  induction f1 generalizing f2 s with
  | zero =>
    have hs : s = [] := List.length_eq_zero.mp (Nat.le_zero.mp h1)
    subst hs
    cases f2 <;> rfl
  | succ f ih =>
    cases s with
    | nil => cases f2 <;> rfl
    | cons c cs =>
      cases f2 with
      | zero => simp at h2
      | succ f2 =>
        simp only [splitRunsAux]
        congr 1
        have hl := spanRun_snd_length (isWordChar c) cs
        apply ih
        · simp at h1; omega
        · simp at h2; omega

theorem splitRuns_nil : splitRuns [] = [] := rfl

theorem splitRuns_cons (c : Char) (cs : Str) :
    splitRuns (c :: cs) =
      (c :: (spanRun (isWordChar c) cs).1) :: splitRuns ((spanRun (isWordChar c) cs).2) := by
  show splitRunsAux (cs.length + 1) (c :: cs) = _
  simp only [splitRunsAux]
  congr 1
  exact splitRunsAux_congr _ _ _ (spanRun_snd_length (isWordChar c) cs) le_rfl

theorem splitRuns_flatten (s : Str) : (splitRuns s).flatten = s := by
  have aux : ∀ fuel t, List.length t ≤ fuel → (splitRunsAux fuel t).flatten = t := by
    intro fuel
    induction fuel with
    | zero =>
      intro t ht
      have hs : t = [] := List.length_eq_zero.mp (Nat.le_zero.mp ht)
      subst hs
      rfl
    | succ f ih =>
      intro t ht
      cases t with
      | nil => rfl
      | cons c cs =>
        simp only [splitRunsAux, List.flatten_cons]
        have hl := spanRun_snd_length (isWordChar c) cs
        rw [ih _ (by simp at ht; omega)]
        simpa using spanRun_append_self (isWordChar c) cs
  exact aux s.length s le_rfl

theorem chainOK_splitRuns (s : Str) (prev : Option Bool)
    (h : ∀ c r, s = c :: r → prev ≠ some (isWordChar c)) :
    chainOK prev (splitRuns s) = true := by
  have aux : ∀ fuel t pv, List.length t ≤ fuel →
      (∀ c r, t = c :: r → pv ≠ some (isWordChar c)) →
      chainOK pv (splitRunsAux fuel t) = true := by
    intro fuel
    induction fuel with
    | zero =>
      intro t pv ht hh
      have hs : t = [] := List.length_eq_zero.mp (Nat.le_zero.mp ht)
      subst hs
      rfl
    | succ f ih =>
      intro t pv ht hh
      cases t with
      | nil => rfl
      | cons c cs =>
        simp only [splitRunsAux, chainOK, Bool.and_eq_true, decide_eq_true_eq]
        refine ⟨⟨hh c cs rfl, ?_⟩, ?_⟩
        · rw [List.all_eq_true]
          intro x hx
          simp [spanRun_fst_all (isWordChar c) cs x hx]
        · have hl := spanRun_snd_length (isWordChar c) cs
          apply ih _ _ (by simp at ht; omega)
          intro d r hd
          simp only [ne_eq, Option.some.injEq]
          intro he
          exact spanRun_snd_head (isWordChar c) cs d r hd (by rw [he])
  exact aux s.length s prev le_rfl h

theorem validRuns_splitRuns (s : Str) : chainOK none (splitRuns s) = true :=
  chainOK_splitRuns s none (by intro c r h; simp)

theorem flatten_head_kind (rs : List Str) (b : Bool) (h : chainOK (some b) rs = true) :
    ∀ c r, rs.flatten = c :: r → isWordChar c ≠ b := by
  cases rs with
  | nil => intro c r hcr; simp at hcr
  | cons hd tl =>
    cases hd with
    | nil => simp [chainOK] at h
    | cons d r2 =>
      simp only [chainOK, Bool.and_eq_true, decide_eq_true_eq] at h
      intro c r hcr
      simp only [List.flatten_cons, List.cons_append, List.cons.injEq] at hcr
      obtain ⟨rfl, -⟩ := hcr
      intro he
      exact h.1.1 (by rw [he])

/-- A wellformed run decomposition is recovered from its flattening: this is
the key fact letting run-level reasoning stand for Python's string-level
regex substitutions. -/
theorem splitRuns_flatten_of_chainOK (rs : List Str) (prev : Option Bool)
    (h : chainOK prev rs = true) : splitRuns rs.flatten = rs := by
  induction rs generalizing prev with
  | nil => rfl
  | cons hd tl ih =>
    cases hd with
    | nil => simp [chainOK] at h
    | cons c r =>
      simp only [chainOK, Bool.and_eq_true, decide_eq_true_eq] at h
      simp only [List.flatten_cons, List.cons_append]
      rw [splitRuns_cons]
      have hsp : spanRun (isWordChar c) (r ++ tl.flatten) = (r, tl.flatten) := by
        apply spanRun_of_append
        · intro d hd2
          have := h.1.2
          rw [List.all_eq_true] at this
          simpa using this d hd2
        · intro d r2 hd2
          exact flatten_head_kind tl (isWordChar c) h.2 d r2 hd2
      rw [hsp]
      simp only [List.cons.injEq, true_and]
      exact ih _ h.2

/-- Mapping runs to nonempty runs of the same word-character status
preserves wellformedness. -/
theorem chainOK_map (f : Str → Str) (rs : List Str) (prev : Option Bool)
    (h : chainOK prev rs = true)
    (hf : ∀ r ∈ rs, ∀ b, (∀ c ∈ r, isWordChar c = b) →
      f r ≠ [] ∧ ∀ c ∈ f r, isWordChar c = b) :
    chainOK prev (rs.map f) = true := by
  induction rs generalizing prev with
  | nil => rfl
  | cons hd tl ih =>
    cases hd with
    | nil => simp [chainOK] at h
    | cons c r =>
      simp only [chainOK, Bool.and_eq_true, decide_eq_true_eq] at h
      have hall : ∀ x ∈ c :: r, isWordChar x = isWordChar c := by
        intro x hx
        simp only [List.mem_cons] at hx
        rcases hx with rfl | hx
        · rfl
        · have := h.1.2
          rw [List.all_eq_true] at this
          simpa using this x hx
      obtain ⟨hne, huni⟩ := hf (c :: r) (by simp) (isWordChar c) hall
      simp only [List.map_cons]
      cases hfc : f (c :: r) with
      | nil => exact absurd hfc hne
      | cons d r2 =>
        simp only [chainOK, Bool.and_eq_true, decide_eq_true_eq]
        have hd2 : isWordChar d = isWordChar c := by
          have := huni d
          rw [hfc] at this
          exact this (by simp)
        refine ⟨⟨by rw [hd2]; exact h.1.1, ?_⟩, ?_⟩
        · rw [List.all_eq_true]
          intro x hx
          have := huni x
          rw [hfc] at this
          simp [this (by simp [hx]), hd2]
        · rw [hd2]
          apply ih _ h.2
          intro r3 hr3 b hb
          exact hf r3 (by simp [hr3]) b hb

/-- Run-level rewriting (nonempty, status-preserving) commutes with the run
decomposition. -/
theorem splitRuns_flatten_map (f : Str → Str) (s : Str)
    (hf : ∀ r ∈ splitRuns s, ∀ b, (∀ c ∈ r, isWordChar c = b) →
      f r ≠ [] ∧ ∀ c ∈ f r, isWordChar c = b) :
    splitRuns ((splitRuns s).map f).flatten = (splitRuns s).map f :=
  splitRuns_flatten_of_chainOK _ none (chainOK_map f _ none (validRuns_splitRuns s) hf)

theorem mem_tokensInSql (s t : Str) :
    t ∈ tokensInSql s ↔ t ∈ splitRuns s ∧ isIdentTok t = true := by
  simp [tokensInSql, List.mem_dedup, List.mem_filter]

theorem nodup_tokensInSql (s : Str) : (tokensInSql s).Nodup := List.nodup_dedup _

theorem isIdentTok_ne_nil (t : Str) (h : isIdentTok t = true) : t ≠ [] := by
  cases t
  · simp [isIdentTok] at h
  · simp

theorem isIdentTok_all_word (t : Str) (h : isIdentTok t = true) :
    ∀ c ∈ t, isWordChar c = true := by
  cases t with
  | nil => simp [isIdentTok] at h
  | cons c cs =>
    simp only [isIdentTok, Bool.and_eq_true] at h
    rw [List.all_eq_true] at h
    exact h.2

theorem isIdentTok_three_le (t : Str) (h : isIdentTok t = true) : 3 ≤ t.length := by
  cases t with
  | nil => simp [isIdentTok] at h
  | cons c cs =>
    simp only [isIdentTok, Bool.and_eq_true, decide_eq_true_eq] at h
    exact h.1.2

theorem lowerStr_length (s : Str) : (lowerStr s).length = s.length := by simp [lowerStr]

theorem all_word_of_lowerStr_eq (r t : Str) (h : lowerStr r = lowerStr t) :
    r.all isWordChar = t.all isWordChar := by
  induction r generalizing t with
  | nil =>
    cases t with
    | nil => rfl
    | cons d ds => simp [lowerStr] at h
  | cons c cs ih =>
    cases t with
    | nil => simp [lowerStr] at h
    | cons d ds =>
      simp only [lowerStr, List.map_cons, List.cons.injEq] at h
      simp only [List.all_cons]
      rw [isWordChar_of_toLower_eq c d h.1, ih ds h.2]

theorem isIdentTok_of_lowerStr_eq (r t : Str) (h : lowerStr r = lowerStr t) :
    isIdentTok r = isIdentTok t := by
  cases r with
  | nil =>
    cases t with
    | nil => rfl
    | cons d ds => simp [lowerStr] at h
  | cons c cs =>
    cases t with
    | nil => simp [lowerStr] at h
    | cons d ds =>
      have hlen : cs.length = ds.length := by
        have hc := congrArg List.length h
        simpa [lowerStr] using hc
      have hall := all_word_of_lowerStr_eq (c :: cs) (d :: ds) h
      simp only [lowerStr, List.map_cons, List.cons.injEq] at h
      simp only [isIdentTok]
      rw [isIdentStart_of_toLower_eq c d h.1, hall]
      simp [hlen]

theorem upperStr_of_lowerStr_eq (r t : Str) (h : lowerStr r = lowerStr t) :
    upperStr r = upperStr t := by
  induction r generalizing t with
  | nil =>
    cases t with
    | nil => rfl
    | cons d ds => simp [lowerStr] at h
  | cons c cs ih =>
    cases t with
    | nil => simp [lowerStr] at h
    | cons d ds =>
      simp only [lowerStr, List.map_cons, List.cons.injEq] at h
      simp only [upperStr, List.map_cons, List.cons.injEq]
      exact ⟨toUpper_of_toLower_eq c d h.1, by simpa [upperStr] using ih ds h.2⟩

/-- The quote-skipping check of app.py line 248 can never fire: a token
produced by the regex of line 231 consists solely of word characters and so
contains neither quote character. -/
theorem quote_any_false (t : Str) (h : ∀ c ∈ t, isWordChar c = true) :
    (t.any fun c => c == '\'' || c == '"') = false := by
  rw [List.any_eq_false]
  intro c hc
  have hw := h c hc
  by_cases h1 : c = '\''
  · subst h1; simp [isWordChar] at hw
  by_cases h2 : c = '"'
  · subst h2; simp [isWordChar] at hw
  simp [h1, h2]

theorem lookupLower_mem (cols : List Str) (k c : Str) (h : lookupLower cols k = some c) :
    c ∈ cols := by
  unfold lookupLower at h
  have := List.mem_of_find?_eq_some h
  exact List.mem_reverse.mp this

theorem bestMatch_mem (scorer : Str → Str → Nat) (tok : Str) (choices : List Str)
    (p : Str × Nat) (h : bestMatch scorer tok choices = some p) : p.1 ∈ choices := by
  induction choices generalizing p with
  | nil => simp [bestMatch] at h
  | cons c cs ih =>
    simp only [bestMatch] at h
    split at h
    · cases h
      simp
    · rename_i b bs hb
      split at h
      · cases h
        exact List.mem_cons_of_mem c (ih _ hb)
      · cases h
        simp

theorem extractOne_mem (scorer : Str → Str → Nat) (cutoff : Nat) (choices : List Str)
    (tok c : Str) (h : extractOne scorer cutoff choices tok = some c) : c ∈ choices := by
  unfold extractOne at h
  split at h
  · simp at h
  · rename_i p hb
    split at h
    · cases h
      exact bestMatch_mem scorer tok choices p hb
    · simp at h

theorem chainOK_ne_nil (rs : List Str) (pv : Option Bool) (h : chainOK pv rs = true) :
    ∀ r ∈ rs, r ≠ [] := by
  induction rs generalizing pv with
  | nil => simp
  | cons hd tl ih =>
    cases hd with
    | nil => simp [chainOK] at h
    | cons c r =>
      simp only [chainOK, Bool.and_eq_true] at h
      intro x hx
      simp only [List.mem_cons] at hx
      rcases hx with rfl | hx
      · simp
      · exact ih _ h.2 x hx

theorem splitRuns_mem_ne_nil (s : Str) : ∀ r ∈ splitRuns s, r ≠ [] :=
  chainOK_ne_nil _ none (validRuns_splitRuns s)

/-- Tokens that agree after lowercasing agree on the skip test. -/
theorem isSkipTok_of_lowerStr_eq (r t : Str) (h : lowerStr r = lowerStr t) :
    isSkipTok r = isSkipTok t := by
  unfold isSkipTok
  rw [h, upperStr_of_lowerStr_eq r t h]

theorem runImage_cases (scorer : Str → Str → Nat) (cols : List Str) (r : Str) :
    runImage scorer cols r = r ∨
      (isIdentTok r = true ∧ runImage scorer cols r ∈ cols) := by
  unfold runImage
  by_cases hid : isIdentTok r = true
  · rw [if_pos hid]
    unfold reconcileTarget
    split
    · left; rfl
    · split
      · left; rfl
      · split
        · rename_i canonical hlk
          right
          exact ⟨hid, lookupLower_mem cols _ canonical hlk⟩
        · rename_i hlk
          cases he : extractOne scorer 80 cols r with
          | none => left; simp [he]
          | some m =>
            right
            refine ⟨hid, ?_⟩
            simp only [he, Option.getD_some]
            exact extractOne_mem scorer 80 cols r m he
  · rw [if_neg hid]
    left
    rfl

theorem runImageUpTo_preserves (scorer : Str → Str → Nat) (cols : List Str)
    (done : List Str) (s : Str) (hword : colsWordShaped cols) :
    ∀ r ∈ splitRuns s, ∀ b, (∀ c ∈ r, isWordChar c = b) →
      runImageUpTo scorer cols done r ≠ [] ∧
        ∀ c ∈ runImageUpTo scorer cols done r, isWordChar c = b := by
  intro r hr b hb
  unfold runImageUpTo
  by_cases hd : r ∈ done
  · rw [if_pos hd]
    rcases runImage_cases scorer cols r with he | ⟨hid, hmem⟩
    · rw [he]
      exact ⟨splitRuns_mem_ne_nil s r hr, hb⟩
    · have hbt : b = true := by
        obtain ⟨c, hc⟩ := List.exists_mem_of_ne_nil r (isIdentTok_ne_nil r hid)
        rw [← hb c hc]
        exact isIdentTok_all_word r hid c hc
      subst hbt
      exact ⟨(hword _ hmem).1, (hword _ hmem).2⟩
  · rw [if_neg hd]
    exact ⟨splitRuns_mem_ne_nil s r hr, hb⟩

/-- One loop iteration, acting on a string whose runs are the partially
processed runs of `s`, processes exactly the runs controlled by `t`. -/
theorem reconcileStep_runs (scorer : Str → Str → Nat) (cols : List Str) (s : Str)
    (done : List Str) (t : Str) (hcan : colsCanonical cols) (hword : colsWordShaped cols)
    (huni : fuzzyClassUnique cols s) (ht : t ∈ tokensInSql s)
    (hdone : ∀ d ∈ done, d ∈ tokensInSql s) (htd : t ∉ done) :
    reconcileStep scorer cols (((splitRuns s).map (runImageUpTo scorer cols done)).flatten) t
      = ((splitRuns s).map (runImageUpTo scorer cols (done ++ [t]))).flatten := by
  obtain ⟨hts, hid⟩ := (mem_tokensInSql s t).mp ht
  have hquote : (t.any fun c => c == '\'' || c == '"') = false :=
    quote_any_false t (isIdentTok_all_word t hid)
  have hsplit : splitRuns (((splitRuns s).map (runImageUpTo scorer cols done)).flatten)
      = (splitRuns s).map (runImageUpTo scorer cols done) :=
    splitRuns_flatten_map _ s (runImageUpTo_preserves scorer cols done s hword)
  have hsame : runImage scorer cols t = t →
      ((splitRuns s).map (runImageUpTo scorer cols done)).flatten
        = ((splitRuns s).map (runImageUpTo scorer cols (done ++ [t]))).flatten := by
    intro himg
    congr 1
    apply List.map_congr_left
    intro r hr
    by_cases hd : r ∈ done
    · rw [show runImageUpTo scorer cols done r = runImage scorer cols r from if_pos hd,
        show runImageUpTo scorer cols (done ++ [t]) r = runImage scorer cols r from
          if_pos (by simp [hd])]
    · by_cases hrt : r = t
      · subst hrt
        rw [show runImageUpTo scorer cols done r = r from if_neg hd,
          show runImageUpTo scorer cols (done ++ [r]) r = runImage scorer cols r from
            if_pos (by simp), himg]
      · rw [show runImageUpTo scorer cols done r = r from if_neg hd,
          show runImageUpTo scorer cols (done ++ [t]) r = r from
            if_neg (by simp [hd, hrt])]
  have hsub : ∀ ci repl, runImage scorer cols t = repl →
      (∀ r ∈ splitRuns s, r ∈ done → runMatches ci t (runImage scorer cols r) = false) →
      (∀ r ∈ splitRuns s, r ∉ done → r ≠ t → runMatches ci t r = false) →
      runMatches ci t t = true →
      reSubWord ci t repl (((splitRuns s).map (runImageUpTo scorer cols done)).flatten)
        = ((splitRuns s).map (runImageUpTo scorer cols (done ++ [t]))).flatten := by
    intro ci repl himg hprocessed hnew hself
    unfold reSubWord
    rw [hsplit, List.map_map]
    congr 1
    apply List.map_congr_left
    intro r hr
    simp only [Function.comp_apply]
    by_cases hd : r ∈ done
    · rw [show runImageUpTo scorer cols done r = runImage scorer cols r from if_pos hd,
        show runImageUpTo scorer cols (done ++ [t]) r = runImage scorer cols r from
          if_pos (by simp [hd])]
      simp [hprocessed r hr hd]
    · by_cases hrt : r = t
      · subst hrt
        rw [show runImageUpTo scorer cols done r = r from if_neg hd,
          show runImageUpTo scorer cols (done ++ [r]) r = runImage scorer cols r from
            if_pos (by simp)]
        simp [hself, himg]
      · rw [show runImageUpTo scorer cols done r = r from if_neg hd,
          show runImageUpTo scorer cols (done ++ [t]) r = r from
            if_neg (by simp [hd, hrt])]
        simp [hnew r hr hd hrt]
  unfold reconcileStep
  by_cases hskip : isSkipTok t = true
  · rw [if_pos hskip]
    apply hsame
    unfold runImage reconcileTarget
    rw [if_pos hid, if_pos hskip]
  · rw [if_neg hskip, hquote, if_neg (by simp)]
    have hskipf : isSkipTok t = false := by
      revert hskip
      cases isSkipTok t <;> simp
    have himgBase : runImage scorer cols t = reconcileTarget scorer cols t := by
      unfold runImage
      rw [if_pos hid]
    split
    · rename_i canonical hlk
      by_cases hct : t ≠ canonical
      · rw [if_pos hct]
        apply hsub false canonical
        · rw [himgBase]
          unfold reconcileTarget
          rw [if_neg hskip, hquote, if_neg (by simp), hlk]
        · intro r hr hd
          have hne : runImage scorer cols r ≠ t := by
            rcases runImage_cases scorer cols r with he | ⟨hidr, hmem⟩
            · rw [he]
              intro hcontra
              exact htd (hcontra ▸ hd)
            · intro hcontra
              have := hcan t (hcontra ▸ hmem)
              rw [hlk] at this
              cases this
              exact hct rfl
          simp only [runMatches, if_neg (by simp : ¬ (false = true))]
          exact beq_eq_false_iff_ne.mpr hne
        · intro r hr hd hrt
          simp only [runMatches, if_neg (by simp : ¬ (false = true))]
          exact beq_eq_false_iff_ne.mpr hrt
        · simp [runMatches]
      · rw [if_neg hct]
        push_neg at hct
        apply hsame
        rw [himgBase]
        unfold reconcileTarget
        rw [if_neg hskip, hquote, if_neg (by simp), hlk, ← hct]
    · rename_i hlk
      split
      · rename_i matched hex
        apply hsub true matched
        · rw [himgBase]
          unfold reconcileTarget
          rw [if_neg hskip, hquote, if_neg (by simp), hlk, hex]
          rfl
        · intro r hr hd
          have hne : lowerStr (runImage scorer cols r) ≠ lowerStr t := by
            rcases runImage_cases scorer cols r with he | ⟨hidr, hmem⟩
            · rw [he]
              intro hcontra
              have hrtok : r ∈ tokensInSql s := hdone r hd
              have := huni t ht r hrtok hcontra.symm hskipf hlk
              exact htd (this ▸ hd)
            · intro hcontra
              have := hcan _ hmem
              rw [hcontra] at this
              rw [hlk] at this
              cases this
          simp only [runMatches, if_pos rfl]
          exact beq_eq_false_iff_ne.mpr hne
        · intro r hr hd hrt
          have hne : lowerStr r ≠ lowerStr t := by
            intro hcontra
            have hidr : isIdentTok r = true := by
              rw [isIdentTok_of_lowerStr_eq r t hcontra]
              exact hid
            have hrtok : r ∈ tokensInSql s := (mem_tokensInSql s r).mpr ⟨hr, hidr⟩
            have hskipr : isSkipTok r = false := by
              rw [isSkipTok_of_lowerStr_eq r t hcontra]
              exact hskipf
            exact hrt (huni r hrtok t ht hcontra hskipr (hcontra ▸ hlk))
          simp only [runMatches, if_pos rfl]
          exact beq_eq_false_iff_ne.mpr hne
        · simp [runMatches]
      · rename_i hex
        apply hsame
        rw [himgBase]
        unfold reconcileTarget
        rw [if_neg hskip, hquote, if_neg (by simp), hlk, hex]
        rfl

theorem reconcile_fold (scorer : Str → Str → Nat) (cols : List Str) (s : Str)
    (hcan : colsCanonical cols) (hword : colsWordShaped cols)
    (huni : fuzzyClassUnique cols s) :
    ∀ ts done, done ++ ts = tokensInSql s →
      List.foldl (reconcileStep scorer cols)
          (((splitRuns s).map (runImageUpTo scorer cols done)).flatten) ts
        = ((splitRuns s).map (runImageUpTo scorer cols (done ++ ts))).flatten := by
  intro ts
  induction ts with
  | nil => intro done hd; simp
  | cons t ts ih =>
    intro done hd
    have hnodup : (done ++ t :: ts).Nodup := by
      rw [hd]
      exact nodup_tokensInSql s
    have htd : t ∉ done := by
      rcases List.nodup_append.mp hnodup with ⟨-, -, hdisj⟩
      intro hcontra
      exact hdisj hcontra (by simp)
    have ht : t ∈ tokensInSql s := by
      rw [← hd]
      simp
    have hdone : ∀ d ∈ done, d ∈ tokensInSql s := by
      intro d hdm
      rw [← hd]
      simp [hdm]
    simp only [List.foldl_cons]
    rw [reconcileStep_runs scorer cols s done t hcan hword huni ht hdone htd]
    have := ih (done ++ [t]) (by simpa using hd)
    simpa using this

theorem reconcile_runs_eq (scorer : Str → Str → Nat) (cols : List Str) (s : Str)
    (hcan : colsCanonical cols) (hword : colsWordShaped cols)
    (huni : fuzzyClassUnique cols s) :
    reconcile scorer cols s = ((splitRuns s).map (runImage scorer cols)).flatten := by
  have h0 : ((splitRuns s).map (runImageUpTo scorer cols [])).flatten = s := by
    have hmap : (splitRuns s).map (runImageUpTo scorer cols []) = splitRuns s := by
      have hid2 : ∀ r ∈ splitRuns s, runImageUpTo scorer cols [] r = id r := by
        intro r hr
        simp [runImageUpTo]
      rw [List.map_congr_left hid2, List.map_id]
    rw [hmap, splitRuns_flatten]
  have hfold := reconcile_fold scorer cols s hcan hword huni (tokensInSql s) [] (by simp)
  unfold reconcile
  calc List.foldl (reconcileStep scorer cols) s (tokensInSql s)
      = List.foldl (reconcileStep scorer cols)
          (((splitRuns s).map (runImageUpTo scorer cols [])).flatten) (tokensInSql s) := by
        rw [h0]
    _ = ((splitRuns s).map (runImageUpTo scorer cols ([] ++ tokensInSql s))).flatten := hfold
    _ = ((splitRuns s).map (runImage scorer cols)).flatten := by
        congr 1
        apply List.map_congr_left
        intro r hr
        by_cases hmem : r ∈ tokensInSql s
        · exact if_pos (by simpa using hmem)
        · rw [show runImageUpTo scorer cols ([] ++ tokensInSql s) r = r from
            if_neg (by simpa using hmem)]
          rw [show runImage scorer cols r = r from if_neg ?_]
          intro hidr
          exact hmem ((mem_tokensInSql s r).mpr ⟨hr, hidr⟩)

theorem runImage_preserves (scorer : Str → Str → Nat) (cols : List Str) (s : Str)
    (hword : colsWordShaped cols) :
    ∀ r ∈ splitRuns s, ∀ b, (∀ c ∈ r, isWordChar c = b) →
      runImage scorer cols r ≠ [] ∧ ∀ c ∈ runImage scorer cols r, isWordChar c = b := by
  intro r hr b hb
  rcases runImage_cases scorer cols r with he | ⟨hid, hmem⟩
  · rw [he]
    exact ⟨splitRuns_mem_ne_nil s r hr, hb⟩
  · have hbt : b = true := by
      obtain ⟨c, hc⟩ := List.exists_mem_of_ne_nil r (isIdentTok_ne_nil r hid)
      rw [← hb c hc]
      exact isIdentTok_all_word r hid c hc
    subst hbt
    exact ⟨(hword _ hmem).1, (hword _ hmem).2⟩

/-- Run-level characterization of the reconciliation loop: on a statement
whose same-lowercasing unknown tokens are unambiguous, the loop acts
independently on each maximal run, sending each to its `runImage`. -/
theorem splitRuns_reconcile (scorer : Str → Str → Nat) (cols : List Str) (s : Str)
    (hcan : colsCanonical cols) (hword : colsWordShaped cols)
    (huni : fuzzyClassUnique cols s) :
    splitRuns (reconcile scorer cols s) = (splitRuns s).map (runImage scorer cols) := by
  rw [reconcile_runs_eq scorer cols s hcan hword huni]
  exact splitRuns_flatten_map _ s (runImage_preserves scorer cols s hword)

theorem runImage_idem (scorer : Str → Str → Nat) (cols : List Str)
    (hcan : colsCanonical cols) (hword : colsWordShaped cols) (r : Str) :
    runImage scorer cols (runImage scorer cols r) = runImage scorer cols r := by
  rcases runImage_cases scorer cols r with he | ⟨hidr, hmem⟩
  · rw [he, he]
  · set c := runImage scorer cols r with hc
    have hlk := hcan _ hmem
    have hq := quote_any_false c (hword _ hmem).2
    by_cases hidc : isIdentTok c = true
    · rw [show runImage scorer cols c = reconcileTarget scorer cols c from if_pos hidc]
      unfold reconcileTarget
      split
      · rfl
      · rw [hq, if_neg (by simp)]
        simp only [hlk]
    · exact if_neg hidc

/-- Idempotence of the per-run image lifts to the whole loop. -/
theorem reconcile_idem (scorer : Str → Str → Nat) (cols : List Str) (s : Str)
    (hcan : colsCanonical cols) (hword : colsWordShaped cols)
    (huni : fuzzyClassUnique cols s) :
    reconcile scorer cols (reconcile scorer cols s) = reconcile scorer cols s := by
  have h1 := splitRuns_reconcile scorer cols s hcan hword huni
  have huni2 : fuzzyClassUnique cols (reconcile scorer cols s) := by
    intro t1 ht1 t2 ht2 hlow hskip1 hnone
    obtain ⟨hm1, hident1⟩ := (mem_tokensInSql _ t1).mp ht1
    obtain ⟨hm2, hident2⟩ := (mem_tokensInSql _ t2).mp ht2
    rw [h1] at hm1 hm2
    obtain ⟨r1, hr1, he1⟩ := List.mem_map.mp hm1
    obtain ⟨r2, hr2, he2⟩ := List.mem_map.mp hm2
    have hv1 : t1 = r1 := by
      rcases runImage_cases scorer cols r1 with he | ⟨-, hmem⟩
      · rw [← he1, he]
      · exfalso
        rw [he1] at hmem
        have := hcan _ hmem
        rw [hnone] at this
        cases this
    have hv2 : t2 = r2 := by
      rcases runImage_cases scorer cols r2 with he | ⟨-, hmem⟩
      · rw [← he2, he]
      · exfalso
        rw [he2] at hmem
        have := hcan _ hmem
        rw [hlow] at hnone
        rw [hnone] at this
        cases this
    subst hv1
    subst hv2
    exact huni t1 ((mem_tokensInSql s t1).mpr ⟨hr1, hident1⟩) t2
      ((mem_tokensInSql s t2).mpr ⟨hr2, hident2⟩) hlow hskip1 hnone
  rw [reconcile_runs_eq scorer cols (reconcile scorer cols s) hcan hword huni2, h1,
    List.map_map, reconcile_runs_eq scorer cols s hcan hword huni]
  congr 1
  apply List.map_congr_left
  intro r hr
  simp only [Function.comp_apply]
  exact runImage_idem scorer cols hcan hword r

theorem bestMatch_cons_ne_none (scorer : Str → Str → Nat) (tok c : Str) (cs : List Str) :
    bestMatch scorer tok (c :: cs) ≠ none := by
  simp only [bestMatch]
  split
  · simp
  · split <;> simp

/-- `bestMatch` returns the first choice attaining the maximal score. -/
theorem bestMatch_spec (scorer : Str → Str → Nat) (tok : Str) (choices : List Str)
    (p : Str × Nat) (h : bestMatch scorer tok choices = some p) :
    scorer tok p.1 = p.2 ∧
      ∃ i, ∃ hi : i < choices.length, choices.get ⟨i, hi⟩ = p.1 ∧
        (∀ j, ∀ hj : j < choices.length, scorer tok (choices.get ⟨j, hj⟩) ≤ p.2) ∧
        (∀ j, ∀ hj : j < choices.length, j < i → scorer tok (choices.get ⟨j, hj⟩) < p.2) := by
  induction choices generalizing p with
  | nil => simp [bestMatch] at h
  | cons c cs ih =>
    simp only [bestMatch] at h
    split at h
    · rename_i hnone
      cases h
      have hcs : cs = [] := by
        cases cs with
        | nil => rfl
        | cons d ds => exact absurd hnone (bestMatch_cons_ne_none scorer tok d ds)
      subst hcs
      refine ⟨rfl, 0, by simp, rfl, ?_, ?_⟩
      · intro j hj
        have hj0 : j = 0 := by simpa using Nat.lt_one_iff.mp (by simpa using hj)
        subst hj0
        simp
      · intro j hj hj0
        omega
    · rename_i b bs hb
      split at h
      · rename_i hlt
        cases h
        obtain ⟨hval, i, hi, hget, hle, hstrict⟩ := ih (b, bs) hb
        refine ⟨hval, i + 1, by simpa using Nat.succ_lt_succ hi, by simpa using hget, ?_, ?_⟩
        · intro j hj
          cases j with
          | zero => simpa using le_of_lt hlt
          | succ j2 =>
            have := hle j2 (by simpa using Nat.lt_of_succ_lt_succ hj)
            simpa using this
        · intro j hj hji
          cases j with
          | zero => simpa using hlt
          | succ j2 =>
            have := hstrict j2 (by simpa using Nat.lt_of_succ_lt_succ hj)
              (Nat.lt_of_succ_lt_succ hji)
            simpa using this
      · rename_i hlt
        cases h
        obtain ⟨hval, i, hi, hget, hle, hstrict⟩ := ih (b, bs) hb
        refine ⟨rfl, 0, by simp, rfl, ?_, ?_⟩
        · intro j hj
          cases j with
          | zero => simp
          | succ j2 =>
            have h1 := hle j2 (by simpa using Nat.lt_of_succ_lt_succ hj)
            have h2 : bs ≤ scorer tok c := Nat.le_of_not_lt hlt
            have h3 : scorer tok (cs.get ⟨j2, by simpa using Nat.lt_of_succ_lt_succ hj⟩)
                ≤ scorer tok c := le_trans h1 h2
            simpa using h3
        · intro j hj hj0
          omega

/-- `extractOne` is characterized as the first choice attaining the best
score when that score clears the cutoff. -/
theorem extractOne_first_best (scorer : Str → Str → Nat) (cutoff : Nat)
    (choices : List Str) (tok c : Str) (h : extractOne scorer cutoff choices tok = some c) :
    cutoff ≤ scorer tok c ∧
      ∃ i, ∃ hi : i < choices.length, choices.get ⟨i, hi⟩ = c ∧
        (∀ j, ∀ hj : j < choices.length,
          scorer tok (choices.get ⟨j, hj⟩) ≤ scorer tok c) ∧
        (∀ j, ∀ hj : j < choices.length, j < i →
          scorer tok (choices.get ⟨j, hj⟩) < scorer tok c) := by
  unfold extractOne at h
  split at h
  · simp at h
  · rename_i p hb
    split at h
    · rename_i hcut
      cases h
      obtain ⟨hval, i, hi, hget, hle, hstrict⟩ := bestMatch_spec scorer tok choices p hb
      rw [hval]
      exact ⟨hcut, i, hi, hget, hle, hstrict⟩
    · simp at h

/-- A run whose lowercasing looks up to the run itself (a canonical schema
column, such as a longer identifier containing some token as a substring)
is never rewritten by the loop. -/
theorem runImage_fixed_of_canonical (scorer : Str → Str → Nat) (cols : List Str)
    (r : Str) (h : lookupLower cols (lowerStr r) = some r) :
    runImage scorer cols r = r := by
  unfold runImage
  by_cases hid : isIdentTok r = true
  · rw [if_pos hid]
    unfold reconcileTarget
    split
    · rfl
    · split
      · rfl
      · simp only [h]
  · rw [if_neg hid]

/-- Claim C1: the specification requires non-`SELECT` statements, and
statements referencing tables other than `roof_df`, to be rejected with
`DisallowedStatement` before reaching the relational engine.  The code has
no such gate: `DELETE FROM roof_df` survives validation and reconciliation
unchanged and is handed to the engine, and it does not begin with
`SELECT`. -/
theorem c1_counterexample :
    statementSentToEngine scorerZero colsPoC msgDelete
        = some "DELETE FROM roof_df".toList ∧
      beginsWithSelect "DELETE FROM roof_df".toList = false := by
  constructor
  · decide
  · decide

/-- Claim C1 (amended): the executor stage applies no statement-shape gate
at all — every response that survives tool-call validation has its
statement forwarded to the relational engine after reconciliation, whatever
its shape; engine errors are the only protection. -/
theorem c1_forward_without_gate (scorer : Str → Str → Nat) (cols : List Str)
    (msg : AssistantMsg) (sql : Str) (h : pipelineRawSql msg = some sql) :
    statementSentToEngine scorer cols msg = some (reconcile scorer cols sql) := by
  unfold statementSentToEngine
  rw [h]

theorem c1_forward_without_gate_witness :
    pipelineRawSql msgDelete = some "DELETE FROM roof_df".toList ∧
      statementSentToEngine scorerZero colsPoC msgDelete
        = some (reconcile scorerZero colsPoC "DELETE FROM roof_df".toList) :=
  ⟨by decide, c1_forward_without_gate scorerZero colsPoC msgDelete _ (by decide)⟩

/-- Claim C2: the specification requires reconciliation to fail with
`UnresolvedToken` when a candidate token has no exact match and no fuzzy
score above the cutoff, forwarding nothing.  The code instead leaves such a
token alone and forwards the statement: `foo` resolves to nothing under the
given scorer, yet the statement reaches the engine verbatim. -/
theorem c2_counterexample :
    "foo".toList ∈ tokensInSql "SELECT foo FROM roof_df".toList ∧
      isSkipTok "foo".toList = false ∧
      lookupLower colsPoC (lowerStr "foo".toList) = none ∧
      extractOne scorerZero 80 colsPoC "foo".toList = none ∧
      statementSentToEngine scorerZero colsPoC msgFoo
        = some "SELECT foo FROM roof_df".toList := by
  refine ⟨by decide, by decide, by decide, by decide, by decide⟩

/-- Claim C2 (amended): an unresolved candidate token is left unchanged in
place and the (possibly partially corrected) statement is still forwarded
to the engine; no `UnresolvedToken` failure path exists. -/
theorem c2_unresolved_token_forwarded (scorer : Str → Str → Nat) (cols : List Str)
    (msg : AssistantMsg) (sql t : Str) (hcan : colsCanonical cols)
    (hword : colsWordShaped cols) (huni : fuzzyClassUnique cols sql)
    (hraw : pipelineRawSql msg = some sql) (ht : t ∈ tokensInSql sql)
    (hskip : isSkipTok t = false) (hlk : lookupLower cols (lowerStr t) = none)
    (hex : extractOne scorer 80 cols t = none) :
    statementSentToEngine scorer cols msg = some (reconcile scorer cols sql) ∧
      splitRuns (reconcile scorer cols sql) = (splitRuns sql).map (runImage scorer cols) ∧
      runImage scorer cols t = t := by
  refine ⟨?_, splitRuns_reconcile scorer cols sql hcan hword huni, ?_⟩
  · unfold statementSentToEngine
    rw [hraw]
  · obtain ⟨-, hid⟩ := (mem_tokensInSql sql t).mp ht
    rw [show runImage scorer cols t = reconcileTarget scorer cols t from if_pos hid]
    unfold reconcileTarget
    rw [if_neg (by simp [hskip]), quote_any_false t (isIdentTok_all_word t hid),
      if_neg (by simp)]
    simp only [hlk, hex, Option.getD_none]

theorem c2_unresolved_token_forwarded_witness :
    fuzzyClassUnique colsPoC "SELECT foo FROM roof_df".toList ∧
      (statementSentToEngine scorerZero colsPoC msgFoo
          = some (reconcile scorerZero colsPoC "SELECT foo FROM roof_df".toList) ∧
        splitRuns (reconcile scorerZero colsPoC "SELECT foo FROM roof_df".toList)
          = (splitRuns "SELECT foo FROM roof_df".toList).map (runImage scorerZero colsPoC) ∧
        runImage scorerZero colsPoC "foo".toList = "foo".toList) :=
  ⟨by decide, c2_unresolved_token_forwarded scorerZero colsPoC msgFoo
    "SELECT foo FROM roof_df".toList "foo".toList (by decide) (by decide) (by decide)
    (by decide) (by decide) (by decide) (by decide) (by decide)⟩

/-- Claim C3: the specification requires any orphaned assistant
tool-invocation turn to be repaired with a placeholder failure tool result
before the next synthesis call.  The code never appends a tool-result turn:
after a response whose JSON arguments fail to decode, the next synthesis
call receives a history whose assistant turn still carries an unresolved
tool invocation. -/
theorem c3_counterexample :
    pipelineRawSql msgBadJson = none ∧
      balanced (synthesisInput "system prompt".toList
        (chatAfterInteraction "system prompt".toList [Turn.sys "system prompt".toList]
          "first question".toList msgBadJson)
        "second question".toList) = false := by
  constructor
  · decide
  · decide

/-- Claim C3 (amended): an interaction only ever appends user and assistant
turns to a chat that starts with a system turn; no tool-result turn is ever
synthesized, so orphaned tool invocations persist unrepaired. -/
theorem c3_no_toolresult_repair (sp : Str) (chat : List Turn) (prompt : Str)
    (resp : AssistantMsg) (t0 : Str) (rest : List Turn)
    (hchat : chat = Turn.sys t0 :: rest) :
    ∃ tail, chatAfterInteraction sp chat prompt resp = chat ++ tail ∧
      ∀ u ∈ tail, isToolResult u = false := by
  subst hchat
  have hens : ensureSystem sp (Turn.sys t0 :: rest) = Turn.sys t0 :: rest := rfl
  unfold chatAfterInteraction synthesisInput
  rw [hens]
  unfold appendUserIfNew
  by_cases h1 : (Turn.sys t0 :: rest).getLast? = some (Turn.user prompt)
  · rw [if_pos h1]
    by_cases h2 : Turn.assistant resp ∈ Turn.sys t0 :: rest
    · rw [if_pos h2]
      exact ⟨[], by simp, by simp⟩
    · rw [if_neg h2]
      exact ⟨[Turn.assistant resp], rfl, by simp [isToolResult]⟩
  · rw [if_neg h1]
    by_cases h2 : Turn.assistant resp ∈ (Turn.sys t0 :: rest) ++ [Turn.user prompt]
    · rw [if_pos h2]
      exact ⟨[Turn.user prompt], rfl, by simp [isToolResult]⟩
    · rw [if_neg h2]
      exact ⟨[Turn.user prompt, Turn.assistant resp], by simp, by simp [isToolResult]⟩

theorem c3_no_toolresult_repair_witness :
    ([Turn.sys "sp".toList] = Turn.sys "sp".toList :: ([] : List Turn)) ∧
      ∃ tail, chatAfterInteraction "sp".toList [Turn.sys "sp".toList] "q".toList msgBadJson
          = [Turn.sys "sp".toList] ++ tail ∧ ∀ u ∈ tail, isToolResult u = false :=
  ⟨rfl, c3_no_toolresult_repair "sp".toList [Turn.sys "sp".toList] "q".toList msgBadJson
    "sp".toList [] rfl⟩

/-- Claim C4: the specification (and the code's own comment at app.py line
248) intends quoted string literals to be opaque to tokenization and
substitution, but the quote-skipping check can never fire — tokens consist
of word characters only — so the content of the literal `'Material'` is
tokenized and rewritten to `'material'` by the exact-match substitution. -/
theorem c4_literal_rewritten :
    "Material".toList
        ∈ tokensInSql "SELECT * FROM roof_df WHERE comments = 'Material'".toList ∧
      reconcile scorerZero colsPoC
          "SELECT * FROM roof_df WHERE comments = 'Material'".toList
        = "SELECT * FROM roof_df WHERE comments = 'material'".toList := by
  constructor
  · decide
  · decide

/-- Claim C5: the specification demands that a response missing either
required argument be treated as a synthesis failure and never forwarded,
but a call with `sql` present and `excel` absent is forwarded anyway (the
flag silently defaults to false). -/
theorem c5_counterexample :
    msgNoExcel.toolCalls
        = [⟨execName, some ⟨some "SELECT gas FROM roof_df".toList, none⟩⟩] ∧
      statementSentToEngine scorerZero colsPoC msgNoExcel
        = some "SELECT gas FROM roof_df".toList := by
  constructor
  · rfl
  · decide

/-- Claim C5 (amended): a statement is forwarded exactly when the first
tool call names `execute_query`, its arguments decode, and they carry a
nonempty `sql` string; a missing `excel` argument does not fail — it
defaults to false. -/
theorem c5_validation_shape (msg : AssistantMsg) (sql : Str) :
    (pipelineRawSql msg = some sql ↔
      ∃ tc rest a, msg.toolCalls = tc :: rest ∧ tc.fname = execName ∧ tc.args = some a ∧
        a.sql = some sql ∧ sql ≠ []) ∧
    ∀ a : ParsedArgs, a.excel = none → wantExcel a = false := by
  constructor
  · constructor
    · intro h
      unfold pipelineRawSql at h
      split at h
      · exact absurd h (by simp)
      · rename_i tc rest hcalls
        split at h
        · exact absurd h (by simp)
        · rename_i hname
          split at h
          · exact absurd h (by simp)
          · rename_i a hargs
            split at h
            · exact absurd h (by simp)
            · rename_i sql2 hsql
              split at h
              · exact absurd h (by simp)
              · rename_i hne
                cases h
                exact ⟨tc, rest, a, hcalls, not_ne_iff.mp hname, hargs, hsql, hne⟩
    · rintro ⟨tc, rest, a, hcalls, hname, hargs, hsql, hne⟩
      simp [pipelineRawSql, hcalls, hargs, hsql, hname, hne]
  · intro a ha
    unfold wantExcel
    rw [ha]
    rfl

/-- Claim C6: when every non-skipped identifier token of the statement has
an exact case-insensitive schema-column match, the loop returns the
statement with every such token recast to its canonical column spelling,
and the similarity scorer plays no role at all (any two scorers give the
identical result). -/
theorem c6_exact_tokens_canonicalized (scorer scorer2 : Str → Str → Nat)
    (cols : List Str) (s : Str) (hcan : colsCanonical cols) (hword : colsWordShaped cols)
    (hex : ∀ t ∈ tokensInSql s, isSkipTok t = false →
      (lookupLower cols (lowerStr t)).isSome = true) :
    reconcile scorer cols s = ((splitRuns s).map (exactImage cols)).flatten ∧
      reconcile scorer cols s = reconcile scorer2 cols s := by
  have huni : fuzzyClassUnique cols s := by
    intro t1 ht1 t2 ht2 hlow hskip hnone
    have hsome := hex t1 ht1 hskip
    rw [hnone] at hsome
    simp at hsome
  have hpt : ∀ sc : Str → Str → Nat, ∀ r ∈ splitRuns s,
      runImage sc cols r = exactImage cols r := by
    intro sc r hr
    by_cases hid : isIdentTok r = true
    · by_cases hskip : isSkipTok r = true
      · have hL : runImage sc cols r = r := by
          rw [show runImage sc cols r = reconcileTarget sc cols r from if_pos hid]
          unfold reconcileTarget
          rw [if_pos hskip]
        have hR : exactImage cols r = r := by
          unfold exactImage
          rw [if_neg (by simp [hskip])]
        rw [hL, hR]
      · have hskipf : isSkipTok r = false := by
          revert hskip
          cases isSkipTok r <;> simp
        have hsome := hex r ((mem_tokensInSql s r).mpr ⟨hr, hid⟩) hskipf
        obtain ⟨canonical, hcanon⟩ := Option.isSome_iff_exists.mp hsome
        have hL : runImage sc cols r = canonical := by
          rw [show runImage sc cols r = reconcileTarget sc cols r from if_pos hid]
          unfold reconcileTarget
          rw [if_neg (by simp [hskipf]), quote_any_false r (isIdentTok_all_word r hid),
            if_neg (by simp)]
          simp only [hcanon]
        have hR : exactImage cols r = canonical := by
          unfold exactImage
          rw [if_pos ⟨hid, hskipf⟩]
          simp only [hcanon]
        rw [hL, hR]
    · have hL : runImage sc cols r = r := if_neg hid
      have hR : exactImage cols r = r := by
        unfold exactImage
        rw [if_neg (by simp [hid])]
      rw [hL, hR]
  refine ⟨?_, ?_⟩
  · rw [reconcile_runs_eq scorer cols s hcan hword huni]
    congr 1
    exact List.map_congr_left (hpt scorer)
  · rw [reconcile_runs_eq scorer cols s hcan hword huni,
      reconcile_runs_eq scorer2 cols s hcan hword huni]
    congr 1
    rw [List.map_congr_left (hpt scorer), List.map_congr_left (hpt scorer2)]

theorem c6_exact_tokens_canonicalized_witness :
    (∀ t ∈ tokensInSql sqlExact, isSkipTok t = false →
        (lookupLower colsPoC (lowerStr t)).isSome = true) ∧
      (reconcile scorerZero colsPoC sqlExact
          = ((splitRuns sqlExact).map (exactImage colsPoC)).flatten ∧
        reconcile scorerZero colsPoC sqlExact = reconcile scorerWidth colsPoC sqlExact) :=
  ⟨by decide, c6_exact_tokens_canonicalized scorerZero scorerWidth colsPoC sqlExact
    (by decide) (by decide) (by decide)⟩

/-- Claim C7: a candidate token with no exact match whose fuzzy lookup
returns a column is replaced by exactly that column at every whole-word
occurrence, and the substitution is word-boundary safe: any run that is
itself a canonical schema identifier — such as `external_width_mm_num`
containing the token `width` as a substring — is never rewritten. -/
theorem c7_fuzzy_substitution_word_boundary (scorer : Str → Str → Nat)
    (cols : List Str) (s t c : Str) (hcan : colsCanonical cols)
    (hword : colsWordShaped cols) (huni : fuzzyClassUnique cols s)
    (ht : t ∈ tokensInSql s) (hskip : isSkipTok t = false)
    (hlk : lookupLower cols (lowerStr t) = none)
    (hex : extractOne scorer 80 cols t = some c) :
    splitRuns (reconcile scorer cols s) = (splitRuns s).map (runImage scorer cols) ∧
      runImage scorer cols t = c ∧
      (∀ r ∈ splitRuns s, lowerStr r = lowerStr t → runImage scorer cols r = c) ∧
      ∀ r : Str, lookupLower cols (lowerStr r) = some r → runImage scorer cols r = r := by
  obtain ⟨hts, hid⟩ := (mem_tokensInSql s t).mp ht
  have himg : runImage scorer cols t = c := by
    rw [show runImage scorer cols t = reconcileTarget scorer cols t from if_pos hid]
    unfold reconcileTarget
    rw [if_neg (by simp [hskip]), quote_any_false t (isIdentTok_all_word t hid),
      if_neg (by simp)]
    simp only [hlk, hex, Option.getD_some]
  refine ⟨splitRuns_reconcile scorer cols s hcan hword huni, himg, ?_, ?_⟩
  · intro r hr hlow
    have hidr : isIdentTok r = true := by
      rw [isIdentTok_of_lowerStr_eq r t hlow]
      exact hid
    have hrt : r = t := huni r ((mem_tokensInSql s r).mpr ⟨hr, hidr⟩) t ht hlow
      (by rw [isSkipTok_of_lowerStr_eq r t hlow]; exact hskip) (by rw [hlow]; exact hlk)
    rw [hrt, himg]
  · intro r hcanr
    exact runImage_fixed_of_canonical scorer cols r hcanr

theorem c7_fuzzy_substitution_word_boundary_witness :
    extractOne scorerWidth 80 colsPoC "width".toList
        = some "external_width_mm_num".toList ∧
      (splitRuns (reconcile scorerWidth colsPoC sqlWidth)
          = (splitRuns sqlWidth).map (runImage scorerWidth colsPoC) ∧
        runImage scorerWidth colsPoC "width".toList = "external_width_mm_num".toList ∧
        (∀ r ∈ splitRuns sqlWidth, lowerStr r = lowerStr "width".toList →
          runImage scorerWidth colsPoC r = "external_width_mm_num".toList) ∧
        ∀ r : Str, lookupLower colsPoC (lowerStr r) = some r →
          runImage scorerWidth colsPoC r = r) :=
  ⟨by decide, c7_fuzzy_substitution_word_boundary scorerWidth colsPoC sqlWidth
    "width".toList "external_width_mm_num".toList (by decide) (by decide) (by decide)
    (by decide) (by decide) (by decide) (by decide)⟩

/-- Claim C8: the specification prescribes breaking similarity ties by the
longest common prefix with the token.  `extractOne` instead keeps the
earliest best-scoring column: with `zzz` and `abc_col` tying at 90 for the
token `abc_co`, reconciliation substitutes `zzz`, not the longer-prefix
`abc_col`. -/
theorem c8_counterexample :
    scorerTie "abc_co".toList "zzz".toList = scorerTie "abc_co".toList "abc_col".toList ∧
      extractOne scorerTie 80 colsTie "abc_co".toList = some "zzz".toList ∧
      commonPrefixLen "abc_co".toList "zzz".toList <
        commonPrefixLen "abc_co".toList "abc_col".toList ∧
      reconcile scorerTie colsTie "SELECT abc_co FROM roof_df".toList
        = "SELECT zzz FROM roof_df".toList ∧
      reconcile scorerTie colsTie "SELECT abc_co FROM roof_df".toList
        ≠ "SELECT abc_col FROM roof_df".toList := by
  refine ⟨by decide, by decide, by decide, by decide, by decide⟩

/-- Claim C8 (amended): when the cutoff is cleared, the column substituted
for a token is the first schema column attaining the maximal similarity
score — list position, not common-prefix length, breaks ties, and the
choice is a deterministic function of the token, the scorer and the column
order. -/
theorem c8_tie_first_position (scorer : Str → Str → Nat) (cols : List Str)
    (tok c : Str) (h : extractOne scorer 80 cols tok = some c) :
    80 ≤ scorer tok c ∧
      ∃ i, ∃ hi : i < cols.length, cols.get ⟨i, hi⟩ = c ∧
        (∀ j, ∀ hj : j < cols.length, scorer tok (cols.get ⟨j, hj⟩) ≤ scorer tok c) ∧
        (∀ j, ∀ hj : j < cols.length, j < i →
          scorer tok (cols.get ⟨j, hj⟩) < scorer tok c) :=
  extractOne_first_best scorer 80 cols tok c h

theorem c8_tie_first_position_witness :
    extractOne scorerTie 80 colsTie "abc_co".toList = some "zzz".toList ∧
      (80 ≤ scorerTie "abc_co".toList "zzz".toList ∧
        ∃ i, ∃ hi : i < colsTie.length, colsTie.get ⟨i, hi⟩ = "zzz".toList ∧
          (∀ j, ∀ hj : j < colsTie.length,
            scorerTie "abc_co".toList (colsTie.get ⟨j, hj⟩)
              ≤ scorerTie "abc_co".toList "zzz".toList) ∧
          (∀ j, ∀ hj : j < colsTie.length, j < i →
            scorerTie "abc_co".toList (colsTie.get ⟨j, hj⟩)
              < scorerTie "abc_co".toList "zzz".toList)) :=
  ⟨by decide, c8_tie_first_position scorerTie colsTie "abc_co".toList "zzz".toList
    (by decide)⟩

/-- Claim C9: reconciliation is idempotent — reconciling an
already-reconciled statement changes nothing, provided the schema columns
are canonical word-shaped names and the statement's unresolved tokens are
case-unambiguous. -/
theorem c9_reconcile_idempotent (scorer : Str → Str → Nat) (cols : List Str) (s : Str)
    (hcan : colsCanonical cols) (hword : colsWordShaped cols)
    (huni : fuzzyClassUnique cols s) :
    reconcile scorer cols (reconcile scorer cols s) = reconcile scorer cols s :=
  reconcile_idem scorer cols s hcan hword huni

theorem c9_reconcile_idempotent_witness :
    fuzzyClassUnique colsPoC sqlGass ∧
      reconcile scorerGass colsPoC (reconcile scorerGass colsPoC sqlGass)
        = reconcile scorerGass colsPoC sqlGass :=
  ⟨by decide, c9_reconcile_idempotent scorerGass colsPoC sqlGass (by decide) (by decide)
    (by decide)⟩

/-- Claim C10: the tokenizer considers exactly the maximal word runs of
length at least three that start with a letter or underscore; every shorter
identifier is never a token, and reconciliation maps every run shorter than
three characters to itself, so such identifiers pass through unchanged. -/
theorem c10_short_identifiers_untouched (scorer : Str → Str → Nat) (cols : List Str)
    (s : Str) (hcan : colsCanonical cols) (hword : colsWordShaped cols)
    (huni : fuzzyClassUnique cols s) :
    (∀ t ∈ tokensInSql s, 3 ≤ t.length ∧ t ∈ splitRuns s ∧
        ∀ c cs, t = c :: cs → isIdentStart c = true) ∧
      splitRuns (reconcile scorer cols s) = (splitRuns s).map (runImage scorer cols) ∧
      ∀ r : Str, r.length < 3 → runImage scorer cols r = r := by
  refine ⟨?_, splitRuns_reconcile scorer cols s hcan hword huni, ?_⟩
  · intro t ht
    obtain ⟨hts, hid⟩ := (mem_tokensInSql s t).mp ht
    refine ⟨isIdentTok_three_le t hid, hts, ?_⟩
    intro c cs hc
    subst hc
    simp only [isIdentTok, Bool.and_eq_true] at hid
    exact hid.1.1
  · intro r hlen
    have hident : ¬ isIdentTok r = true := by
      intro hid
      have := isIdentTok_three_le r hid
      omega
    exact if_neg hident

theorem c10_short_identifiers_untouched_witness :
    fuzzyClassUnique colsPoC sqlShort ∧
      ((∀ t ∈ tokensInSql sqlShort, 3 ≤ t.length ∧ t ∈ splitRuns sqlShort ∧
          ∀ c cs, t = c :: cs → isIdentStart c = true) ∧
        splitRuns (reconcile scorerZero colsPoC sqlShort)
          = (splitRuns sqlShort).map (runImage scorerZero colsPoC) ∧
        ∀ r : Str, r.length < 3 → runImage scorerZero colsPoC r = r) :=
  ⟨by decide, c10_short_identifiers_untouched scorerZero colsPoC sqlShort (by decide)
    (by decide) (by decide)⟩

end RoofWindows
